import Mathlib

/-!
Shallow embedding of the vector retrieval subsystem of the repository,
`src/data_ingestion/vector_store.py` (class `VectorStore`).

Modelling conventions:
* Python dicts (`self.indexes`, `self.document_maps`, each per-collection
  document map) are association lists; assignment replaces the value of an
  existing key in place and otherwise appends (Python dicts preserve
  insertion order), `pop` removes the key.
* The per-collection document map is keyed by `str(doc_id)` in the source,
  where `doc_id` is always a nonnegative integer; we key by `Nat`
  (decimal string keys of a Python dict are in bijection with them).
* Floats are modelled as exact rationals (`ℚ`).
* The sentence-transformers model (`self.model`) is a parameter of the
  state: `Option` of a fallible embedder `String → Option (List ℚ)`.
  `self.model = None` models the constructor's failure branch; an embedder
  returning `none` models `model.encode` raising, and a batched encode
  fails when any item fails (the source makes one batched call).
* The FAISS `IndexFlatL2` is a dimension together with the list of stored
  rows in insertion order; `add` asserts every row has the index's
  dimension (raising otherwise, before any mutation), `search` asserts the
  query dimension, computes squared-L2 distances to every row, and returns
  the `k` smallest (distance, row-id) pairs, padding with id `-1` when
  fewer than `k` rows exist.
* Python exceptions inside a `try` block are modelled by the `Option`
  failure of the failing primitive; every `except` branch of the source
  returns the documented fallback (`[]` or `False`) with the state as it
  was at the raise point.
* `save_indexes` / `load_indexes` exchange data through the files the
  source writes (`index_metadata.json`, `{name}.faiss`,
  `{name}_docmap.json`); the filesystem snapshot is a `SavedFiles`
  structure. `load_indexes` only uses the collection names from the
  metadata file, which is what the source reads from it. The
  `save_indexes()` call at the end of `add_documents` writes to disk
  without changing the in-memory state, so the in-memory operations are
  modelled without threading the filesystem.
-/

/-- A stored document: the `{'text': ..., 'metadata': ...}` record kept in
`self.document_maps[index_name][str(doc_id)]`. Metadata is an open
string-keyed mapping. -/
structure Doc where
  text : String
  metadata : List (String × String)
deriving DecidableEq, Repr

/-- A FAISS `IndexFlatL2`: its dimension `d` and the vectors added so far,
in insertion order (row number = FAISS internal id). -/
structure FaissIndex where
  d : Nat
  vectors : List (List ℚ)
deriving DecidableEq, Repr

/-- One entry of the list returned by `VectorStore.search`. -/
structure SearchResult where
  text : String
  metadata : List (String × String)
  score : ℚ
  id : Nat
deriving DecidableEq, Repr

/-- An embedder: `model.encode` on a single text, `none` when encoding
raises. -/
def Embedder : Type := String → Option (List ℚ)

/-- The in-memory state of a `VectorStore`. -/
structure VectorStore where
  embedding_dim : Nat
  model : Option Embedder
  indexes : List (String × FaissIndex)
  document_maps : List (String × List (Nat × Doc))

/-- Dict lookup `m[k]` / `m.get(k)` on an association list (first match). -/
def alistLookup {κ α : Type} [DecidableEq κ] : List (κ × α) → κ → Option α
  | [], _ => none
  | p :: ps, k => if p.1 = k then some p.2 else alistLookup ps k

/-- Dict assignment `m[k] = v`: replaces the value in place when the key is
present, appends otherwise. -/
def alistInsert {κ α : Type} [DecidableEq κ] : List (κ × α) → κ → α → List (κ × α)
  | [], k, v => [(k, v)]
  | p :: ps, k, v => if p.1 = k then (k, v) :: ps else p :: alistInsert ps k v

/-- Dict `m.pop(k)`: removes the entries with key `k`. -/
def alistErase {κ α : Type} [DecidableEq κ] (m : List (κ × α)) (k : κ) : List (κ × α) :=
  m.filter (fun p => p.1 ≠ k)

/-- Squared L2 distance between two vectors, the metric of
`faiss.IndexFlatL2`. -/
def sqL2 : List ℚ → List ℚ → ℚ
  | [], _ => 0
  | _, [] => 0
  | a :: as, b :: bs => (a - b) ^ 2 + sqL2 as bs

/-- The (distance, row-id) pairs of every stored row against a query,
row ids counted from `i`. -/
def scoreRows (q : List ℚ) : List (List ℚ) → Nat → List (ℚ × Int)
  | [], _ => []
  | v :: vs, i => (sqL2 q v, (i : Int)) :: scoreRows q vs (i + 1)

/-- Insert a scored row into a distance-sorted list (ascending, equal
distances keep earlier rows first). -/
def insertByDist (x : ℚ × Int) : List (ℚ × Int) → List (ℚ × Int)
  | [] => [x]
  | y :: ys => if x.1 < y.1 then x :: y :: ys else y :: insertByDist x ys

/-- Sort scored rows by ascending distance. -/
def sortByDist : List (ℚ × Int) → List (ℚ × Int)
  | [] => []
  | x :: xs => insertByDist x (sortByDist xs)

/-- `faiss.IndexFlatL2.add`: asserts every row has dimension `d` (raising,
hence `none`, before anything is added), then appends the rows. -/
def faissAdd (idx : FaissIndex) (rows : List (List ℚ)) : Option FaissIndex :=
  if rows.all (fun v => v.length = idx.d) then
    some { idx with vectors := idx.vectors ++ rows }
  else
    none

/-- `faiss.IndexFlatL2.search` for one query: asserts the query dimension
(raising, hence `none`, otherwise), then returns the `k` nearest
(distance, row-id) pairs, padded to length `k` with id `-1` (the padding
distance is an arbitrary large value; callers ignore it). -/
def faissSearch (idx : FaissIndex) (q : List ℚ) (k : Nat) : Option (List (ℚ × Int)) :=
  if q.length = idx.d then
    let top := (sortByDist (scoreRows q idx.vectors 0)).take k
    some (top ++ List.replicate (k - top.length) ((10 ^ 38 : ℚ), -1))
  else
    none

/-- Batched `model.encode(texts)`: one call embedding every text; an error
on any item fails the whole call. -/
def encodeBatch (enc : Embedder) (texts : List String) : Option (List (List ℚ)) :=
  texts.mapM enc

/-- `VectorStore.index_exists`. -/
def index_exists (s : VectorStore) (index_name : String) : Bool :=
  (alistLookup s.indexes index_name).isSome

/-- `VectorStore.create_index`: unconditionally binds `index_name` to a
fresh empty `IndexFlatL2(self.embedding_dim)` and an empty document map,
returning `True`. (The `except` branch of the source is unreachable in the
model: nothing in the `try` block can raise.) -/
def create_index (s : VectorStore) (index_name : String) : VectorStore × Bool :=
  let index : FaissIndex := { d := s.embedding_dim, vectors := [] }
  ({ s with
      indexes := alistInsert s.indexes index_name index,
      document_maps := alistInsert s.document_maps index_name [] }, true)

/-- `VectorStore.add_documents`. Returns the new state and the list of
document ids; every failure path of the source returns `[]`. -/
def add_documents (s : VectorStore) (index_name : String) (documents : List Doc) :
    VectorStore × List Nat :=
  match s.model with
  | none => (s, [])
  | some enc =>
    let s₁ := if (alistLookup s.indexes index_name).isSome then s
              else (create_index s index_name).1
    let texts := documents.map Doc.text
    match encodeBatch enc texts with
    | none => (s₁, [])
    | some embeddings =>
      match alistLookup s₁.document_maps index_name with
      | none => (s₁, [])
      | some doc_map =>
        let next_id := doc_map.length
        match alistLookup s₁.indexes index_name with
        | none => (s₁, [])
        | some index =>
          match faissAdd index embeddings with
          | none => (s₁, [])
          | some index' =>
            let withIds := documents.enum.map (fun p => (next_id + p.1, p.2))
            let doc_map' := withIds.foldl (fun m e => alistInsert m e.1 e.2) doc_map
            ({ s₁ with
                indexes := alistInsert s₁.indexes index_name index',
                document_maps := alistInsert s₁.document_maps index_name doc_map' },
             withIds.map Prod.fst)

/-- The similarity score of `VectorStore.search`:
`1.0 - min(distance / max_distance, 1.0)` with `max_distance = 100.0`. -/
def simScore (distance : ℚ) : ℚ :=
  1 - min (distance / 100) 1

/-- `VectorStore.search`. Every failure path of the source (no model,
missing index, encode raising, FAISS dimension assert, missing document
map) returns `[]`; FAISS padding ids (`-1`) and ids absent from the
document map are skipped. -/
def search (s : VectorStore) (index_name : String) (query : String) (k : Nat) :
    List SearchResult :=
  match s.model with
  | none => []
  | some enc =>
    match alistLookup s.indexes index_name with
    | none => []
    | some index =>
      match enc query with
      | none => []
      | some query_embedding =>
        match faissSearch index query_embedding k with
        | none => []
        | some pairs =>
          match alistLookup s.document_maps index_name with
          | none => []
          | some doc_map =>
            pairs.filterMap (fun p =>
              if p.2 = -1 then none
              else
                match alistLookup doc_map p.2.toNat with
                | none => none
                | some doc_data =>
                  some { text := doc_data.text,
                         metadata := doc_data.metadata,
                         score := simScore p.1,
                         id := p.2.toNat })

/-- `VectorStore.delete_documents`: collects the surviving documents
(text and metadata only), pops both maps, recreates the index with
`create_index` and re-adds the survivors with `add_documents`, returning
`True`; `False` only when the index does not exist. -/
def delete_documents (s : VectorStore) (index_name : String) (doc_ids : List Nat) :
    VectorStore × Bool :=
  match alistLookup s.indexes index_name with
  | none => (s, false)
  | some _ =>
    match alistLookup s.document_maps index_name with
    | none => (s, false)
    | some doc_map =>
      let remaining_docs := (doc_map.filter (fun e => ¬ e.1 ∈ doc_ids)).map
        (fun e => ({ text := e.2.text, metadata := e.2.metadata } : Doc))
      let s₁ := { s with
                   indexes := alistErase s.indexes index_name,
                   document_maps := alistErase s.document_maps index_name }
      let s₂ := (create_index s₁ index_name).1
      let s₃ := if remaining_docs.isEmpty then s₂
                else (add_documents s₂ index_name remaining_docs).1
      (s₃, true)

/-- The files `save_indexes` writes: the collection names recorded in
`index_metadata.json` (its counts, dimensions and timestamps are not read
back by `load_indexes`), the `{name}.faiss` files, and the
`{name}_docmap.json` files (written only for names present in
`document_maps`). -/
structure SavedFiles where
  metadata : List String
  faissFiles : List (String × FaissIndex)
  docmapFiles : List (String × List (Nat × Doc))

/-- `VectorStore.save_indexes`. -/
def save_indexes (s : VectorStore) : SavedFiles :=
  { metadata := s.indexes.map Prod.fst,
    faissFiles := s.indexes,
    docmapFiles := s.indexes.filterMap (fun p =>
      (alistLookup s.document_maps p.1).map (fun dm => (p.1, dm))) }

/-- One step of the `load_indexes` loop over the metadata entries: load the
`.faiss` file when it exists, then the `_docmap.json` file when it
exists. -/
def loadStep (saved : SavedFiles) (st : VectorStore) (name : String) : VectorStore :=
  match alistLookup saved.faissFiles name with
  | none => st
  | some index =>
    let st₁ := { st with indexes := alistInsert st.indexes name index }
    match alistLookup saved.docmapFiles name with
    | none => st₁
    | some dm => { st₁ with document_maps := alistInsert st₁.document_maps name dm }

/-- `VectorStore.load_indexes`, run on a store `s` against the files
`saved` found at its `vector_db_path`. -/
def load_indexes (saved : SavedFiles) (s : VectorStore) : VectorStore :=
  saved.metadata.foldl (loadStep saved) s

/-! ### Invariants -/

/-- The document-map invariant the operations maintain: the keys are
exactly `0, 1, ..., n-1` in insertion order. -/
def CollWf (dm : List (Nat × Doc)) : Prop :=
  dm.map Prod.fst = List.range dm.length

/-- Every collection's document map satisfies `CollWf`. -/
def MapsWf (maps : List (String × List (Nat × Doc))) : Prop :=
  ∀ name dm, alistLookup maps name = some dm → CollWf dm

/-- Store-level id invariant. -/
def StoreWf (s : VectorStore) : Prop :=
  MapsWf s.document_maps

/-- A FAISS index whose stored rows all have its configured dimension. -/
def GoodIdx (idx : FaissIndex) : Prop :=
  ∀ v ∈ idx.vectors, v.length = idx.d

/-- Every index of the map stores only rows of its dimension. -/
def IdxsGood (m : List (String × FaissIndex)) : Prop :=
  ∀ name idx, alistLookup m name = some idx → GoodIdx idx

/-- The dimension invariant of the store: every stored embedding's length
equals its collection's configured dimension. -/
def DimInv (s : VectorStore) : Prop :=
  IdxsGood s.indexes

/-! ### Test fixtures (concrete embedder and stores for witnesses) -/

/-- A natural number as a rational, by raw constructor (kernel-reducible,
unlike the `Nat.cast` instance chain). -/
def natToRat (n : Nat) : ℚ := ⟨n, 1, one_ne_zero, Nat.coprime_one_right _⟩

/-- A deterministic test embedder: one-dimensional embedding by text
length. -/
def testEnc : Embedder := fun t => some [natToRat t.length]

/-- An embedder whose encode call always raises. -/
def failEnc : Embedder := fun _ => none

/-- A fresh store with the test embedder. -/
def s0 : VectorStore :=
  { embedding_dim := 1, model := some testEnc, indexes := [], document_maps := [] }

/-- `s0` after `create_index "kb"`. -/
def s1 : VectorStore := (create_index s0 "kb").1

/-- First test document. -/
def docA : Doc := { text := "aa", metadata := [] }

/-- Second test document. -/
def docB : Doc := { text := "bbbb", metadata := [] }

/-- `s1` after inserting `docA` and `docB` (ids 0 and 1). -/
def s2 : VectorStore := (add_documents s1 "kb" [docA, docB]).1

/-- `s1` after inserting only `docA` (a one-document collection). -/
def sOne : VectorStore := (add_documents s1 "kb" [docA]).1

/-- `s2` with the embedder replaced by the always-failing one. -/
def s2fail : VectorStore := { s2 with model := some failEnc }

/-- The first result of a concrete one-document search, used by a
witness. -/
def headResult : SearchResult := (search sOne "kb" "xyz" 1).head (by decide)

/-- A fresh empty store sharing `s2`'s embedder, the target of a reload. -/
def freshStore : VectorStore :=
  { embedding_dim := 1, model := some testEnc, indexes := [], document_maps := [] }

/-! ### Association list lemmas -/

theorem alistLookup_insert_self {κ α : Type} [DecidableEq κ]
    (m : List (κ × α)) (k : κ) (v : α) :
    alistLookup (alistInsert m k v) k = some v := by
  induction m with
  | nil => simp [alistInsert, alistLookup]
  | cons p ps ih =>
    by_cases h : p.1 = k
    · simp [alistInsert, alistLookup, h]
    · simp [alistInsert, alistLookup, h, ih]

theorem alistLookup_insert_ne {κ α : Type} [DecidableEq κ]
    (m : List (κ × α)) (k k' : κ) (v : α) (hne : k ≠ k') :
    alistLookup (alistInsert m k v) k' = alistLookup m k' := by
  induction m with
  | nil => simp [alistInsert, alistLookup, hne]
  | cons p ps ih =>
    by_cases h : p.1 = k
    · simp [alistInsert, alistLookup, h, hne]
    · simp [alistInsert, alistLookup, h, ih]

theorem alistLookup_erase_self {κ α : Type} [DecidableEq κ]
    (m : List (κ × α)) (k : κ) :
    alistLookup (alistErase m k) k = none := by
  unfold alistErase
  induction m with
  | nil => rfl
  | cons p ps ih =>
    rw [List.filter_cons]
    by_cases h : p.1 = k
    · rw [if_neg (by simp [h])]
      exact ih
    · rw [if_pos (by simp [h])]
      simp only [alistLookup, h, if_false]
      exact ih

theorem alistLookup_erase_ne {κ α : Type} [DecidableEq κ]
    (m : List (κ × α)) (k k' : κ) (hne : k' ≠ k) :
    alistLookup (alistErase m k) k' = alistLookup m k' := by
  unfold alistErase
  induction m with
  | nil => rfl
  | cons p ps ih =>
    rw [List.filter_cons]
    by_cases h : p.1 = k
    · have hp : ¬ p.1 = k' := by
        rw [h]
        intro hh
        exact hne hh.symm
      rw [if_neg (by simp [h])]
      rw [ih]
      simp [alistLookup, hp]
    · rw [if_pos (by simp [h])]
      by_cases h2 : p.1 = k'
      · simp [alistLookup, h2]
      · simp only [alistLookup, h2, if_false]
        exact ih

theorem alistLookup_isSome_iff_mem {κ α : Type} [DecidableEq κ]
    (m : List (κ × α)) (k : κ) :
    (alistLookup m k).isSome ↔ k ∈ m.map Prod.fst := by
  induction m with
  | nil => simp [alistLookup]
  | cons p ps ih =>
    simp only [alistLookup, List.map_cons, List.mem_cons]
    by_cases h : p.1 = k
    · simp [h]
    · have h2 : ¬ k = p.1 := by
        intro hh
        exact h hh.symm
      simp [h, h2, ih]

theorem alistInsert_fresh {κ α : Type} [DecidableEq κ]
    (m : List (κ × α)) (k : κ) (v : α) (h : ¬ k ∈ m.map Prod.fst) :
    alistInsert m k v = m ++ [(k, v)] := by
  induction m with
  | nil => simp [alistInsert]
  | cons p ps ih =>
    simp only [List.map_cons, List.mem_cons] at h
    push_neg at h
    have h1 : ¬ p.1 = k := by
      intro hh
      exact h.1 hh.symm
    simp [alistInsert, h1, ih h.2]

/-! ### Sorting and scoring lemmas -/

theorem length_insertByDist (x : ℚ × Int) (l : List (ℚ × Int)) :
    (insertByDist x l).length = l.length + 1 := by
  induction l with
  | nil => rfl
  | cons y ys ih =>
    by_cases h : x.1 < y.1
    · simp [insertByDist, h]
    · simp [insertByDist, h, ih]

theorem length_sortByDist (l : List (ℚ × Int)) :
    (sortByDist l).length = l.length := by
  induction l with
  | nil => rfl
  | cons x xs ih => simp [sortByDist, length_insertByDist, ih]

theorem mem_insertByDist (x y : ℚ × Int) (l : List (ℚ × Int))
    (h : y ∈ insertByDist x l) : y = x ∨ y ∈ l := by
  induction l with
  | nil =>
    simp only [insertByDist, List.mem_singleton] at h
    exact Or.inl h
  | cons z zs ih =>
    by_cases hc : x.1 < z.1
    · simp only [insertByDist, hc, if_true, List.mem_cons] at h
      rcases h with h | h | h
      · exact Or.inl h
      · exact Or.inr (by simp [h])
      · exact Or.inr (List.mem_cons_of_mem _ h)
    · simp only [insertByDist, hc, if_false, List.mem_cons] at h
      rcases h with h | h
      · exact Or.inr (by simp [h])
      · rcases ih h with h2 | h2
        · exact Or.inl h2
        · exact Or.inr (List.mem_cons_of_mem _ h2)

theorem mem_sortByDist (y : ℚ × Int) (l : List (ℚ × Int))
    (h : y ∈ sortByDist l) : y ∈ l := by
  induction l with
  | nil => simp [sortByDist] at h
  | cons x xs ih =>
    rcases mem_insertByDist x y (sortByDist xs) h with h2 | h2
    · simp [h2]
    · exact List.mem_cons_of_mem _ (ih h2)

theorem length_scoreRows (q : List ℚ) (vs : List (List ℚ)) (i : Nat) :
    (scoreRows q vs i).length = vs.length := by
  induction vs generalizing i with
  | nil => rfl
  | cons v vs ih => simp [scoreRows, ih]

theorem mem_scoreRows (q : List ℚ) (vs : List (List ℚ)) (i : Nat)
    (p : ℚ × Int) (h : p ∈ scoreRows q vs i) :
    ∃ j, ∃ hj : j < vs.length, p.1 = sqL2 q (vs.get ⟨j, hj⟩) ∧ p.2 = ((i + j : Nat) : Int) := by
  induction vs generalizing i with
  | nil => simp [scoreRows] at h
  | cons v vs ih =>
    simp only [scoreRows, List.mem_cons] at h
    rcases h with h | h
    · subst h
      exact ⟨0, by simp, rfl, by simp⟩
    · obtain ⟨j, hj, h1, h2⟩ := ih (i + 1) h
      refine ⟨j + 1, by simpa using hj, ?_, ?_⟩
      · simpa using h1
      · rw [h2]
        congr 1
        omega

theorem sqL2_nonneg (a b : List ℚ) : 0 ≤ sqL2 a b := by
  induction a generalizing b with
  | nil => simp [sqL2]
  | cons x xs ih =>
    cases b with
    | nil => simp [sqL2]
    | cons y ys =>
      have h1 : (0 : ℚ) ≤ (x - y) ^ 2 := sq_nonneg _
      have h2 := ih ys
      simp only [sqL2]
      linarith

theorem simScore_nonneg (d : ℚ) : 0 ≤ simScore d := by
  unfold simScore
  have : min (d / 100) 1 ≤ 1 := min_le_right _ _
  linarith

theorem simScore_le_one (d : ℚ) (hd : 0 ≤ d) : simScore d ≤ 1 := by
  unfold simScore
  have h1 : (0 : ℚ) ≤ d / 100 := by positivity
  have : (0 : ℚ) ≤ min (d / 100) 1 := le_min h1 (by norm_num)
  linarith

theorem simScore_antitone (d₁ d₂ : ℚ) (h : d₁ ≤ d₂) : simScore d₂ ≤ simScore d₁ := by
  unfold simScore
  have h1 : d₁ / 100 ≤ d₂ / 100 := by linarith
  have : min (d₁ / 100) 1 ≤ min (d₂ / 100) 1 :=
    min_le_min h1 (le_refl 1)
  linarith

theorem length_filterMap_of_all_isSome {α β : Type} (f : α → Option β) (l : List α)
    (h : ∀ x ∈ l, (f x).isSome) : (l.filterMap f).length = l.length := by
  induction l with
  | nil => rfl
  | cons x xs ih =>
    have hx := h x (by simp)
    obtain ⟨y, hy⟩ := Option.isSome_iff_exists.mp hx
    rw [List.filterMap_cons, hy]
    simp only [List.length_cons]
    rw [ih (fun z hz => h z (List.mem_cons_of_mem _ hz))]

theorem filterMap_replicate_none {α β : Type} (f : α → Option β) (n : Nat) (x : α)
    (h : f x = none) : (List.replicate n x).filterMap f = [] := by
  induction n with
  | zero => rfl
  | succ m ih =>
    rw [List.replicate_succ, List.filterMap_cons, h, ih]

/-! ### C2 — create_collection on an existing name -/

/-- C2 counterexample: in a state where collection `"kb"` already exists and
holds two documents, `create_index "kb"` returns `true` — it does not fail —
and resets the collection's document map to empty, so the claim that
creation fails and leaves the existing documents unchanged is false on the
code. -/
theorem create_index_existing_cex :
    (create_index s2 "kb").2 = true ∧
    alistLookup s2.document_maps "kb" = some [(0, docA), (1, docB)] ∧
    alistLookup (create_index s2 "kb").1.document_maps "kb" = some [] := by
  decide

/-- C2 amended: for every state, `create_index name` succeeds (returns
`true`) even when `name` already exists, rebinding the name to a fresh
empty index of dimension `embedding_dim` with an empty document map —
discarding any existing documents rather than failing. -/
theorem create_index_existing_amended (s : VectorStore) (index_name : String) :
    (create_index s index_name).2 = true ∧
    alistLookup (create_index s index_name).1.indexes index_name =
      some { d := s.embedding_dim, vectors := [] } ∧
    alistLookup (create_index s index_name).1.document_maps index_name = some [] := by
  refine ⟨rfl, ?_, ?_⟩
  · simp [create_index, alistLookup_insert_self]
  · simp [create_index, alistLookup_insert_self]

/-! ### C3 — search on a missing collection -/

/-- C3 counterexample: searching the nonexistent collection `"missing"`
returns the plain empty list — the very value an existing empty collection
(`"kb"` in state `s1`) yields — instead of raising or returning a typed
`CollectionNotFound` error; the function has no error channel at all. -/
theorem search_missing_cex :
    alistLookup s2.indexes "missing" = none ∧
    search s2 "missing" "x" 5 = [] ∧
    search s1 "kb" "x" 5 = [] := by
  decide

/-- C3 amended: for every state, query and `k`, searching a collection name
that does not exist logs an error and returns the empty list (silently
indistinguishable from searching an existing empty collection); no typed
`CollectionNotFound` error is produced. -/
theorem search_missing_amended (s : VectorStore) (index_name query : String) (k : Nat)
    (h : alistLookup s.indexes index_name = none) :
    search s index_name query k = [] := by
  cases hm : s.model with
  | none => simp [search, hm]
  | some enc => simp [search, hm, h]

/-- Witness for C3 amended at a concrete input. -/
theorem search_missing_amended_witness :
    alistLookup s2.indexes "missing" = none ∧ search s2 "missing" "q" 3 = [] :=
  ⟨by decide, search_missing_amended s2 "missing" "q" 3 (by decide)⟩

/-! ### C7 — add_documents with an empty batch -/

/-- C7 counterexample: `add_documents "kb" []` on a state whose collection
`"kb"` exists returns the plain empty id list and leaves both maps exactly
unchanged — it neither raises nor returns a typed `InvalidArgument` error,
and it does silently return an empty id list. -/
theorem add_documents_empty_cex :
    (add_documents s2 "kb" []).2 = ([] : List Nat) ∧
    (add_documents s2 "kb" []).1.document_maps = s2.document_maps ∧
    (add_documents s2 "kb" []).1.indexes = s2.indexes := by
  decide

/-- C7 amended: for every state whose model is available and in which the
collection exists, `add_documents name []` returns the empty id list with
the collection's index and document map unchanged; the code has no typed
error channel (`[]` doubles as its failure value), so no `InvalidArgument`
is ever produced. -/
theorem add_documents_empty_amended (s : VectorStore) (index_name : String)
    (enc : Embedder) (idx : FaissIndex) (dm : List (Nat × Doc))
    (hm : s.model = some enc)
    (hi : alistLookup s.indexes index_name = some idx)
    (hd : alistLookup s.document_maps index_name = some dm) :
    (add_documents s index_name []).2 = [] ∧
    alistLookup (add_documents s index_name []).1.indexes index_name = some idx ∧
    alistLookup (add_documents s index_name []).1.document_maps index_name = some dm := by
  simp only [add_documents, hm, hi, Option.isSome_some, if_true, List.map_nil]
  simp only [encodeBatch, List.mapM_nil]
  simp only [hd, hi]
  simp only [faissAdd, List.all_nil, if_true, List.append_nil]
  simp only [List.enum_nil, List.map_nil, List.foldl_nil]
  simp [alistLookup_insert_self]

/-- Witness for C7 amended at a concrete input. -/
theorem add_documents_empty_amended_witness :
    (add_documents s2 "kb" []).2 = [] ∧
    alistLookup (add_documents s2 "kb" []).1.indexes "kb" =
      some { d := 1, vectors := [[natToRat 2], [natToRat 4]] } ∧
    alistLookup (add_documents s2 "kb" []).1.document_maps "kb" =
      some [(0, docA), (1, docB)] :=
  add_documents_empty_amended s2 "kb" testEnc
    { d := 1, vectors := [[natToRat 2], [natToRat 4]] }
    [(0, docA), (1, docB)] (by rfl) (by decide) (by decide)

/-! ### C4 — batch atomicity of add_documents -/

/-- C4: batch insertion is atomic with respect to embedding failure: for
every state whose model is available, every existing collection and every
input batch, if the batched embedder call fails (it fails as a whole when
any item fails), `add_documents` returns the failure value `[]` and the
whole state — in particular the collection's document map and search
structure — is exactly as before the call. -/
theorem add_documents_atomic (s : VectorStore) (index_name : String)
    (documents : List Doc) (enc : Embedder)
    (hm : s.model = some enc)
    (hex : (alistLookup s.indexes index_name).isSome)
    (hfail : encodeBatch enc (documents.map Doc.text) = none) :
    add_documents s index_name documents = (s, []) := by
  simp only [add_documents, hm, hex, if_true, hfail]

/-- Witness for C4 at a concrete input: a store whose embedder always
raises. -/
theorem add_documents_atomic_witness :
    add_documents s2fail "kb" [docA] = (s2fail, []) :=
  add_documents_atomic s2fail "kb" [docA] failEnc (by rfl) (by decide) (by rfl)

/-! ### Fold-insert lemmas (document-map update loop) -/

theorem alistLookup_foldl_insert_untouched {κ α : Type} [DecidableEq κ]
    (es : List (κ × α)) (m : List (κ × α)) (k : κ) (hk : ¬ k ∈ es.map Prod.fst) :
    alistLookup (es.foldl (fun m e => alistInsert m e.1 e.2) m) k = alistLookup m k := by
  induction es generalizing m with
  | nil => rfl
  | cons e rest ih =>
    simp only [List.map_cons, List.mem_cons] at hk
    push_neg at hk
    have h1 : e.1 ≠ k := by
      intro hh
      exact hk.1 hh.symm
    rw [List.foldl_cons, ih _ hk.2, alistLookup_insert_ne _ _ _ _ h1]

theorem alistLookup_foldl_insert_mem {κ α : Type} [DecidableEq κ]
    (es : List (κ × α)) (m : List (κ × α)) (k : κ) (v : α)
    (hnd : (es.map Prod.fst).Nodup) (hkv : (k, v) ∈ es) :
    alistLookup (es.foldl (fun m e => alistInsert m e.1 e.2) m) k = some v := by
  induction es generalizing m with
  | nil => simp at hkv
  | cons e rest ih =>
    simp only [List.map_cons, List.nodup_cons] at hnd
    rcases List.mem_cons.mp hkv with hh | hh
    · subst hh
      rw [List.foldl_cons,
        alistLookup_foldl_insert_untouched rest _ _ (by simpa using hnd.1)]
      exact alistLookup_insert_self _ _ _
    · rw [List.foldl_cons]
      exact ih _ hnd.2 hh

theorem withIds_map_fst (documents : List Doc) (c : Nat) :
    ((documents.enum.map (fun p => (c + p.1, p.2))).map Prod.fst) =
      (List.range documents.length).map (fun j => c + j) := by
  rw [List.map_map]
  have : (Prod.fst ∘ fun p : Nat × Doc => (c + p.1, p.2)) =
      ((fun j => c + j) ∘ Prod.fst) := by
    funext p
    rfl
  rw [this, ← List.map_map, List.enum_map_fst]

/-! ### C6 — id list shape and order -/

/-- C6: for every successfully inserted batch, `add_documents` returns one
id per input document — the consecutive integers starting at the size of
the collection's document map — so the id list has the input's length, is
strictly increasing in insertion order, and the i-th id maps to exactly
the i-th input document in the updated document map. -/
theorem add_documents_id_order (s : VectorStore) (index_name : String)
    (documents : List Doc) (enc : Embedder) (idx : FaissIndex)
    (dm : List (Nat × Doc)) (embs : List (List ℚ))
    (hm : s.model = some enc)
    (hi : alistLookup s.indexes index_name = some idx)
    (hd : alistLookup s.document_maps index_name = some dm)
    (he : encodeBatch enc (documents.map Doc.text) = some embs)
    (hdim : embs.all (fun v => v.length = idx.d) = true) :
    ∃ dm',
      alistLookup (add_documents s index_name documents).1.document_maps index_name
        = some dm' ∧
      (add_documents s index_name documents).2 =
        (List.range documents.length).map (fun j => dm.length + j) ∧
      (add_documents s index_name documents).2.length = documents.length ∧
      List.Pairwise (· < ·) (add_documents s index_name documents).2 ∧
      ∀ i, ∀ h : i < documents.length,
        alistLookup dm' (dm.length + i) = some (documents.get ⟨i, h⟩) := by
  simp only [add_documents, hm, hi, hd, Option.isSome_some, if_true]
  simp only [he]
  simp only [faissAdd, hdim, if_true]
  refine ⟨_, alistLookup_insert_self _ _ _, ?_, ?_, ?_, ?_⟩
  · exact withIds_map_fst documents dm.length
  · rw [withIds_map_fst documents dm.length]
    simp
  · rw [withIds_map_fst documents dm.length]
    refine (List.pairwise_lt_range documents.length).map _ ?_
    intro a b hab
    omega
  · intro i h
    have hnd : ((documents.enum.map (fun p => (dm.length + p.1, p.2))).map Prod.fst).Nodup := by
      rw [withIds_map_fst documents dm.length]
      exact (List.nodup_range documents.length).map (fun a b hab => by omega)
    refine alistLookup_foldl_insert_mem _ _ _ _ hnd ?_
    refine List.mem_map.mpr ⟨(i, documents.get ⟨i, h⟩), ?_, rfl⟩
    rw [List.mem_enum_iff_getElem?]
    simp [List.getElem?_eq_getElem h]

/-- Witness for C6: inserting `[docA, docB]` into the empty collection of
`s1` yields ids `[0, 1]` mapping to the two documents in order. -/
theorem add_documents_id_order_witness :
    ∃ dm',
      alistLookup (add_documents s1 "kb" [docA, docB]).1.document_maps "kb" = some dm' ∧
      (add_documents s1 "kb" [docA, docB]).2 = (List.range 2).map (fun j => 0 + j) ∧
      (add_documents s1 "kb" [docA, docB]).2.length = 2 ∧
      List.Pairwise (· < ·) (add_documents s1 "kb" [docA, docB]).2 ∧
      ∀ i, ∀ h : i < ([docA, docB] : List Doc).length,
        alistLookup dm' (0 + i) = some (([docA, docB] : List Doc).get ⟨i, h⟩) :=
  add_documents_id_order s1 "kb" [docA, docB] testEnc ⟨1, []⟩ []
    [[natToRat 2], [natToRat 4]] (by rfl) (by decide) (by decide) (by rfl) (by decide)

/-! ### C5 — search result count -/

/-- C5: for every state whose model is available, every existing collection
with `n = dm.length` documents (document-map keys `0..n-1` in sync with the
FAISS rows), every non-empty query that embeds to the index dimension, and
every `k ≥ 1`, `search` returns exactly `min k n` results — hence at most
`k`, exactly `min(k, n)` when `n ≥ 1`, and the empty list (not an error)
when `n = 0` — and never pads the result list. -/
theorem search_k_bound (s : VectorStore) (index_name query : String) (k : Nat)
    (enc : Embedder) (idx : FaissIndex) (dm : List (Nat × Doc)) (q : List ℚ)
    (hm : s.model = some enc)
    (hi : alistLookup s.indexes index_name = some idx)
    (hd : alistLookup s.document_maps index_name = some dm)
    (he : enc query = some q)
    (hq : q.length = idx.d)
    (hsync : idx.vectors.length = dm.length)
    (hkeys : dm.map Prod.fst = List.range dm.length)
    (_hk : 1 ≤ k) (_hquery : query ≠ "") :
    (search s index_name query k).length = min k dm.length ∧
    (search s index_name query k).length ≤ k ∧
    (dm = [] → search s index_name query k = []) := by
  have hmain : (search s index_name query k).length = min k dm.length := by
    simp only [search, hm, hi, he, hd, faissSearch, hq, if_true]
    rw [List.filterMap_append]
    rw [filterMap_replicate_none _ _ _ (by simp)]
    rw [List.append_nil]
    have hlen : ∀ p ∈ (sortByDist (scoreRows q idx.vectors 0)).take k,
        ∃ j, j < dm.length ∧ p.2 = ((j : Nat) : Int) := by
      intro p hp
      have hmem := mem_sortByDist p _ (List.mem_of_mem_take hp)
      obtain ⟨j, hj, h1, h2⟩ := mem_scoreRows q idx.vectors 0 p hmem
      exact ⟨j, by omega, by simpa using h2⟩
    rw [length_filterMap_of_all_isSome]
    · rw [List.length_take, length_sortByDist, length_scoreRows, hsync]
    · intro p hp
      obtain ⟨j, hj, h2⟩ := hlen p hp
      have hne : ¬ p.2 = -1 := by
        rw [h2]
        omega
      have htn : p.2.toNat = j := by
        rw [h2]
        simp
      have hmemkeys : j ∈ dm.map Prod.fst := by
        rw [hkeys]
        exact List.mem_range.mpr hj
      have hsome := (alistLookup_isSome_iff_mem dm j).mpr hmemkeys
      obtain ⟨doc_data, hdoc⟩ := Option.isSome_iff_exists.mp hsome
      simp only [hne, if_false, htn, hdoc]
      rfl
  refine ⟨hmain, ?_, ?_⟩
  · rw [hmain]
    exact Nat.min_le_left _ _
  · intro hdm
    subst hdm
    have h0 : (search s index_name query k).length = 0 := by
      rw [hmain]
      simp
    exact List.length_eq_zero.mp h0

/-- Witness for C5: the one-document collection of `sOne` searched with
`k = 5` returns exactly `min 5 1 = 1` result. -/
theorem search_k_bound_witness :
    (search sOne "kb" "xyz" 5).length = min 5 1 ∧
    (search sOne "kb" "xyz" 5).length ≤ 5 ∧
    (([(0, docA)] : List (Nat × Doc)) = [] → search sOne "kb" "xyz" 5 = []) :=
  search_k_bound sOne "kb" "xyz" 5 testEnc ⟨1, [[natToRat 2]]⟩ [(0, docA)]
    [natToRat 3] (by rfl) (by decide) (by decide) (by rfl) (by decide)
    (by decide) (by decide) (by decide) (by decide)

/-! ### C9 — similarity score mapping -/

/-- C9: every result returned by `search` carries the score computed by
the single fixed mapping `simScore d = 1 - min(d / 100, 1)` applied to the
squared-L2 distance between the embedded query and that result's stored
vector; consequently every returned score lies in `[0, 1]`, and the
mapping is non-increasing in the distance (higher score = more similar). -/
theorem search_score_mapping :
    (∀ (s : VectorStore) (index_name query : String) (k : Nat) (r : SearchResult),
      r ∈ search s index_name query k →
      0 ≤ r.score ∧ r.score ≤ 1 ∧
      ∃ enc q idx, s.model = some enc ∧ enc query = some q ∧
        alistLookup s.indexes index_name = some idx ∧
        ∃ hr : r.id < idx.vectors.length,
          r.score = simScore (sqL2 q (idx.vectors.get ⟨r.id, hr⟩))) ∧
    (∀ d₁ d₂ : ℚ, 0 ≤ d₁ → d₁ ≤ d₂ → simScore d₂ ≤ simScore d₁) := by
  constructor
  · intro s index_name query k r hr
    cases hm : s.model with
    | none => simp [search, hm] at hr
    | some enc =>
    cases hi : alistLookup s.indexes index_name with
    | none => simp [search, hm, hi] at hr
    | some idx =>
    cases he : enc query with
    | none => simp [search, hm, hi, he] at hr
    | some q =>
    cases hfs : faissSearch idx q k with
    | none => simp [search, hm, hi, he, hfs] at hr
    | some pairs =>
    cases hd : alistLookup s.document_maps index_name with
    | none => simp [search, hm, hi, he, hfs, hd] at hr
    | some dm =>
    simp only [search, hm, hi, he, hfs, hd] at hr
    obtain ⟨p, hp, hfp⟩ := List.mem_filterMap.mp hr
    by_cases hneg : p.2 = -1
    · simp [hneg] at hfp
    · simp only [hneg, if_false] at hfp
      cases hlk : alistLookup dm p.2.toNat with
      | none => rw [hlk] at hfp; simp at hfp
      | some doc_data =>
      rw [hlk] at hfp
      simp only [Option.some.injEq] at hfp
      have hscore : r.score = simScore p.1 := by rw [← hfp]
      have hid : r.id = p.2.toNat := by rw [← hfp]
      -- p comes from the top part of the FAISS result
      unfold faissSearch at hfs
      by_cases hq : q.length = idx.d
      · rw [if_pos hq] at hfs
        simp only [Option.some.injEq] at hfs
        rw [← hfs] at hp
        rcases List.mem_append.mp hp with htop | hpad
        · have hmem := mem_sortByDist p _ (List.mem_of_mem_take htop)
          obtain ⟨j, hj, h1, h2⟩ := mem_scoreRows q idx.vectors 0 p hmem
          have h2' : p.2 = ((j : Nat) : Int) := by simpa using h2
          have htn : p.2.toNat = j := by rw [h2']; simp
          have hdnn : 0 ≤ sqL2 q (idx.vectors.get ⟨j, hj⟩) := sqL2_nonneg _ _
          have hscore' : r.score = simScore (sqL2 q (idx.vectors.get ⟨j, hj⟩)) := by
            rw [hscore, h1]
          refine ⟨?_, ?_, enc, q, idx, rfl, he, rfl, ?_⟩
          · rw [hscore']
            exact simScore_nonneg _
          · rw [hscore']
            exact simScore_le_one _ hdnn
          · have hjr : r.id = j := by rw [hid, htn]
            have hlt : r.id < idx.vectors.length := by rw [hjr]; exact hj
            refine ⟨hlt, ?_⟩
            have hfin : (⟨r.id, hlt⟩ : Fin idx.vectors.length) = ⟨j, hj⟩ :=
              Fin.ext hjr
            rw [hfin]
            exact hscore'
        · exfalso
          have := (List.mem_replicate.mp hpad).2
          apply hneg
          rw [this]
      · rw [if_neg hq] at hfs
        exact absurd hfs (by simp)
  · intro d₁ d₂ _ h
    exact simScore_antitone d₁ d₂ h

/-- Witness for C9: the single result of a concrete search satisfies the
score specification. -/
theorem search_score_mapping_witness :
    0 ≤ headResult.score ∧ headResult.score ≤ 1 ∧
    ∃ enc q idx, sOne.model = some enc ∧ enc "xyz" = some q ∧
      alistLookup sOne.indexes "kb" = some idx ∧
      ∃ hr : headResult.id < idx.vectors.length,
        headResult.score = simScore (sqL2 q (idx.vectors.get ⟨headResult.id, hr⟩)) :=
  search_score_mapping.1 sOne "kb" "xyz" 1 headResult (List.head_mem _)

/-! ### C1 — id uniqueness and reuse -/

theorem MapsWf_insert (m : List (String × List (Nat × Doc))) (nm : String)
    (dm' : List (Nat × Doc)) (h : MapsWf m) (hdm : CollWf dm') :
    MapsWf (alistInsert m nm dm') := by
  intro name dm hl
  by_cases hn : nm = name
  · subst hn
    rw [alistLookup_insert_self] at hl
    cases hl
    exact hdm
  · rw [alistLookup_insert_ne _ _ _ _ hn] at hl
    exact h _ _ hl

theorem CollWf_nil : CollWf [] := by
  simp [CollWf]

theorem StoreWf_create (s : VectorStore) (index_name : String) (h : StoreWf s) :
    StoreWf (create_index s index_name).1 :=
  MapsWf_insert _ _ _ h CollWf_nil

theorem MapsWf_erase (m : List (String × List (Nat × Doc))) (nm : String)
    (h : MapsWf m) : MapsWf (alistErase m nm) := by
  intro name dm hl
  by_cases hn : name = nm
  · subst hn
    rw [alistLookup_erase_self] at hl
    exact absurd hl (by simp)
  · rw [alistLookup_erase_ne _ _ _ hn] at hl
    exact h _ _ hl

theorem foldl_insert_eq_append {κ α : Type} [DecidableEq κ]
    (es m : List (κ × α))
    (h : ∀ e ∈ es, ¬ e.1 ∈ m.map Prod.fst) (hnd : (es.map Prod.fst).Nodup) :
    es.foldl (fun m e => alistInsert m e.1 e.2) m = m ++ es := by
  induction es generalizing m with
  | nil => simp
  | cons e rest ih =>
    simp only [List.map_cons, List.nodup_cons] at hnd
    rw [List.foldl_cons, alistInsert_fresh _ _ _ (h e (by simp))]
    rw [ih]
    · simp
    · intro e2 he2
      simp only [List.map_append, List.mem_append, List.map_cons, List.map_nil]
      push_neg
      refine ⟨h e2 (by simp [he2]), ?_⟩
      simp only [List.mem_singleton]
      intro hq
      exact hnd.1 (hq ▸ List.mem_map_of_mem Prod.fst he2)
    · exact hnd.2

theorem CollWf_extend (dm : List (Nat × Doc)) (documents : List Doc)
    (hdm : CollWf dm) :
    CollWf ((documents.enum.map (fun p => (dm.length + p.1, p.2))).foldl
      (fun m e => alistInsert m e.1 e.2) dm) := by
  have hkeys := withIds_map_fst documents dm.length
  have heq : (documents.enum.map (fun p => (dm.length + p.1, p.2))).foldl
      (fun m e => alistInsert m e.1 e.2) dm
      = dm ++ documents.enum.map (fun p => (dm.length + p.1, p.2)) := by
    refine foldl_insert_eq_append _ _ ?_ ?_
    · intro e he
      rw [hdm]
      intro hmem
      have hlt := List.mem_range.mp hmem
      obtain ⟨p, hp, hpe⟩ := List.mem_map.mp he
      rw [← hpe] at hlt
      simp at hlt
    · rw [hkeys]
      exact (List.nodup_range documents.length).map (fun a b hab => by omega)
  rw [heq]
  unfold CollWf
  rw [List.map_append, hdm, hkeys, List.length_append, List.length_map,
    List.enum_length, List.range_add]

theorem StoreWf_add (s : VectorStore) (index_name : String) (documents : List Doc)
    (h : StoreWf s) : StoreWf (add_documents s index_name documents).1 := by
  cases hm : s.model with
  | none =>
    simp only [add_documents, hm]
    exact h
  | some enc =>
    have hs₁ : StoreWf (if (alistLookup s.indexes index_name).isSome = true then s
        else (create_index s index_name).1) := by
      split
      · exact h
      · exact StoreWf_create s index_name h
    simp only [add_documents, hm]
    split
    · exact hs₁
    · split
      · exact hs₁
      · next doc_map hdm =>
        split
        · exact hs₁
        · split
          · exact hs₁
          · exact MapsWf_insert _ _ _ hs₁ (CollWf_extend doc_map documents (hs₁ _ _ hdm))

theorem StoreWf_delete (s : VectorStore) (index_name : String) (doc_ids : List Nat)
    (h : StoreWf s) : StoreWf (delete_documents s index_name doc_ids).1 := by
  unfold delete_documents
  split
  · exact h
  · split
    · exact h
    · have h₁ : StoreWf { s with
          indexes := alistErase s.indexes index_name,
          document_maps := alistErase s.document_maps index_name } :=
        MapsWf_erase _ _ h
      have h₂ := StoreWf_create _ index_name h₁
      dsimp only
      split
      · exact h₂
      · exact StoreWf_add _ index_name _ h₂

theorem storeWf_s2 : StoreWf s2 := by
  intro name dm hl
  have hmap : s2.document_maps = [("kb", [(0, docA), (1, docB)])] := by decide
  rw [hmap] at hl
  unfold alistLookup at hl
  by_cases hn : "kb" = name
  · rw [if_pos hn] at hl
    cases hl
    unfold CollWf
    decide
  · rw [if_neg hn] at hl
    exact Option.noConfusion hl

/-- C1 counterexample: ids ARE reused after deletion. In `s2` the
collection `"kb"` holds ids 0 (`docA`) and 1 (`docB`); after
`delete_documents "kb" [0]` succeeds, a subsequent `search` returns id 0
again — now naming the surviving document `docB` — so "no subsequent
search ever returns a deleted id" is false on the code. -/
theorem deleted_id_returned_cex :
    alistLookup s2.document_maps "kb" = some [(0, docA), (1, docB)] ∧
    (delete_documents s2 "kb" [0]).2 = true ∧
    (search (delete_documents s2 "kb" [0]).1 "kb" "xyzw" 1).map SearchResult.id = [0] ∧
    (search (delete_documents s2 "kb" [0]).1 "kb" "xyzw" 1).map SearchResult.text
      = ["bbbb"] := by
  decide

/-- C1 amended: document ids are unique within a collection at any moment
— every reachable document map has keys exactly `0..n-1` (`StoreWf`), an
invariant preserved by `create_index`, `add_documents` and
`delete_documents` — but ids are NOT stable across deletion:
`delete_documents` rebuilds the collection reassigning consecutive ids
from 0 to the survivors, so deleted ids can be returned by later searches
and reassigned to other documents (see the counterexample). -/
theorem ids_unique_not_reused_amended (s : VectorStore) (h : StoreWf s) :
    (∀ name dm, alistLookup s.document_maps name = some dm → (dm.map Prod.fst).Nodup) ∧
    (∀ name, StoreWf (create_index s name).1) ∧
    (∀ name documents, StoreWf (add_documents s name documents).1) ∧
    (∀ name doc_ids, StoreWf (delete_documents s name doc_ids).1) := by
  refine ⟨?_, fun name => StoreWf_create s name h,
    fun name documents => StoreWf_add s name documents h,
    fun name doc_ids => StoreWf_delete s name doc_ids h⟩
  intro name dm hl
  have hc := h name dm hl
  rw [hc]
  exact List.nodup_range _

/-- Witness for C1 amended at the concrete store `s2`. -/
theorem ids_unique_not_reused_amended_witness :
    (∀ name dm, alistLookup s2.document_maps name = some dm → (dm.map Prod.fst).Nodup) ∧
    (∀ name, StoreWf (create_index s2 name).1) ∧
    (∀ name documents, StoreWf (add_documents s2 name documents).1) ∧
    (∀ name doc_ids, StoreWf (delete_documents s2 name doc_ids).1) :=
  ids_unique_not_reused_amended s2 storeWf_s2

/-! ### C10 — dimension invariant -/

theorem IdxsGood_insert (m : List (String × FaissIndex)) (nm : String)
    (idx : FaissIndex) (h : IdxsGood m) (hg : GoodIdx idx) :
    IdxsGood (alistInsert m nm idx) := by
  intro name i hl
  by_cases hn : nm = name
  · subst hn
    rw [alistLookup_insert_self] at hl
    cases hl
    exact hg
  · rw [alistLookup_insert_ne _ _ _ _ hn] at hl
    exact h _ _ hl

theorem IdxsGood_erase (m : List (String × FaissIndex)) (nm : String)
    (h : IdxsGood m) : IdxsGood (alistErase m nm) := by
  intro name i hl
  by_cases hn : name = nm
  · subst hn
    rw [alistLookup_erase_self] at hl
    exact Option.noConfusion hl
  · rw [alistLookup_erase_ne _ _ _ hn] at hl
    exact h _ _ hl

theorem GoodIdx_empty (d : Nat) : GoodIdx { d := d, vectors := [] } := by
  intro v hv
  simp at hv

theorem GoodIdx_faissAdd (idx : FaissIndex) (rows : List (List ℚ)) (idx2 : FaissIndex)
    (h : GoodIdx idx) (heq : faissAdd idx rows = some idx2) : GoodIdx idx2 := by
  unfold faissAdd at heq
  split at heq
  · rename_i hall
    cases heq
    intro v hv
    rcases List.mem_append.mp hv with hv | hv
    · exact h v hv
    · exact of_decide_eq_true (List.all_eq_true.mp hall v hv)
  · exact Option.noConfusion heq

theorem DimInv_create (s : VectorStore) (index_name : String) (h : DimInv s) :
    DimInv (create_index s index_name).1 :=
  IdxsGood_insert _ _ _ h (GoodIdx_empty _)

theorem DimInv_add (s : VectorStore) (index_name : String) (documents : List Doc)
    (h : DimInv s) : DimInv (add_documents s index_name documents).1 := by
  cases hm : s.model with
  | none =>
    simp only [add_documents, hm]
    exact h
  | some enc =>
    have hs₁ : DimInv (if (alistLookup s.indexes index_name).isSome = true then s
        else (create_index s index_name).1) := by
      split
      · exact h
      · exact DimInv_create s index_name h
    simp only [add_documents, hm]
    split
    · exact hs₁
    · split
      · exact hs₁
      · next doc_map hdm =>
        split
        · exact hs₁
        · next index hidx =>
          split
          · exact hs₁
          · next index2 hfa =>
            exact IdxsGood_insert _ _ _ hs₁
              (GoodIdx_faissAdd index _ index2 (hs₁ _ _ hidx) hfa)

theorem DimInv_delete (s : VectorStore) (index_name : String) (doc_ids : List Nat)
    (h : DimInv s) : DimInv (delete_documents s index_name doc_ids).1 := by
  unfold delete_documents
  split
  · exact h
  · split
    · exact h
    · have h₁ : DimInv { s with
          indexes := alistErase s.indexes index_name,
          document_maps := alistErase s.document_maps index_name } :=
        IdxsGood_erase _ _ h
      have h₂ := DimInv_create _ index_name h₁
      dsimp only
      split
      · exact h₂
      · exact DimInv_add _ index_name _ h₂

theorem DimInv_loadStep (saved : SavedFiles) (st : VectorStore) (nm : String)
    (hsv : IdxsGood saved.faissFiles) (hst : DimInv st) :
    DimInv (loadStep saved st nm) := by
  unfold loadStep
  split
  · exact hst
  · rename_i index heq
    have h₁ : IdxsGood (alistInsert st.indexes nm index) :=
      IdxsGood_insert _ _ _ hst (hsv _ _ heq)
    split
    · exact h₁
    · exact h₁

theorem DimInv_load (saved : SavedFiles) (st : VectorStore)
    (hsv : IdxsGood saved.faissFiles) (hst : DimInv st) :
    DimInv (load_indexes saved st) := by
  unfold load_indexes
  generalize saved.metadata = names
  induction names generalizing st with
  | nil => exact hst
  | cons n rest ih =>
    rw [List.foldl_cons]
    exact ih _ (DimInv_loadStep saved st n hsv hst)

/-- C10: the dimension invariant — every stored vector's length equals its
collection's configured dimension (`DimInv`) — holds after every operation:
`create_index` (empty store of dimension `embedding_dim`), `add_documents`
(FAISS `add` rejects rows of the wrong dimension before inserting
anything, so every successfully inserted document's stored embedding has
the collection's dimension), `delete_documents` (rebuild via the two
previous operations), and `save_indexes` followed by `load_indexes` into
any store already satisfying the invariant. `search` mutates no state. -/
theorem dimension_invariant (s : VectorStore) (h : DimInv s) :
    (∀ name, DimInv (create_index s name).1) ∧
    (∀ name documents, DimInv (add_documents s name documents).1) ∧
    (∀ name doc_ids, DimInv (delete_documents s name doc_ids).1) ∧
    (∀ fresh, DimInv fresh → DimInv (load_indexes (save_indexes s) fresh)) :=
  ⟨fun name => DimInv_create s name h,
   fun name documents => DimInv_add s name documents h,
   fun name doc_ids => DimInv_delete s name doc_ids h,
   fun fresh hf => DimInv_load (save_indexes s) fresh h hf⟩

/-- Witness for C10 at the concrete empty store `s0`. -/
theorem dimension_invariant_witness :
    (∀ name, DimInv (create_index s0 name).1) ∧
    (∀ name documents, DimInv (add_documents s0 name documents).1) ∧
    (∀ name doc_ids, DimInv (delete_documents s0 name doc_ids).1) ∧
    (∀ fresh, DimInv fresh → DimInv (load_indexes (save_indexes s0) fresh)) :=
  dimension_invariant s0 (fun _ _ hl => Option.noConfusion hl)

/-! ### C8 — persistence round-trip -/

theorem search_congr (s₁ s₂ : VectorStore) (index_name query : String) (k : Nat)
    (h1 : s₁.model = s₂.model)
    (h2 : alistLookup s₁.indexes index_name = alistLookup s₂.indexes index_name)
    (h3 : alistLookup s₁.document_maps index_name
      = alistLookup s₂.document_maps index_name) :
    search s₁ index_name query k = search s₂ index_name query k := by
  unfold search
  rw [h1, h2, h3]

theorem loadStep_model (saved : SavedFiles) (st : VectorStore) (nm : String) :
    (loadStep saved st nm).model = st.model := by
  unfold loadStep
  split
  · rfl
  · split
    · rfl
    · rfl

theorem load_model (saved : SavedFiles) (st : VectorStore) :
    (load_indexes saved st).model = st.model := by
  unfold load_indexes
  generalize saved.metadata = names
  induction names generalizing st with
  | nil => rfl
  | cons n rest ih =>
    rw [List.foldl_cons, ih, loadStep_model]

theorem loadStep_lookup_ne (saved : SavedFiles) (st : VectorStore) (nm name0 : String)
    (hne : nm ≠ name0) :
    alistLookup (loadStep saved st nm).indexes name0 = alistLookup st.indexes name0 ∧
    alistLookup (loadStep saved st nm).document_maps name0
      = alistLookup st.document_maps name0 := by
  unfold loadStep
  split
  · exact ⟨rfl, rfl⟩
  · split
    · exact ⟨alistLookup_insert_ne _ _ _ _ hne, rfl⟩
    · exact ⟨alistLookup_insert_ne _ _ _ _ hne, alistLookup_insert_ne _ _ _ _ hne⟩

theorem load_go_untouched (saved : SavedFiles) (names : List String)
    (st : VectorStore) (name0 : String) (h : ¬ name0 ∈ names) :
    alistLookup (names.foldl (loadStep saved) st).indexes name0
      = alistLookup st.indexes name0 ∧
    alistLookup (names.foldl (loadStep saved) st).document_maps name0
      = alistLookup st.document_maps name0 := by
  induction names generalizing st with
  | nil => exact ⟨rfl, rfl⟩
  | cons n rest ih =>
    simp only [List.mem_cons] at h
    push_neg at h
    have hne : n ≠ name0 := fun hh => h.1 hh.symm
    rw [List.foldl_cons]
    have hrest := ih (loadStep saved st n) h.2
    have hstep := loadStep_lookup_ne saved st n name0 hne
    exact ⟨hrest.1.trans hstep.1, hrest.2.trans hstep.2⟩

theorem load_go_mem (saved : SavedFiles) (names : List String)
    (st : VectorStore) (name0 : String) (idx0 : FaissIndex)
    (hnd : names.Nodup) (hmem : name0 ∈ names)
    (hff : alistLookup saved.faissFiles name0 = some idx0) :
    alistLookup (names.foldl (loadStep saved) st).indexes name0 = some idx0 ∧
    alistLookup (names.foldl (loadStep saved) st).document_maps name0
      = (match alistLookup saved.docmapFiles name0 with
         | some dm => some dm
         | none => alistLookup st.document_maps name0) := by
  induction names generalizing st with
  | nil => simp at hmem
  | cons n rest ih =>
    simp only [List.nodup_cons] at hnd
    rw [List.foldl_cons]
    rcases List.mem_cons.mp hmem with hh | hh
    · subst hh
      have huntouched := load_go_untouched saved rest (loadStep saved st name0) name0 hnd.1
      refine ⟨huntouched.1.trans ?_, huntouched.2.trans ?_⟩
      · unfold loadStep
        rw [hff]
        dsimp only
        cases hdm : alistLookup saved.docmapFiles name0 with
        | none => exact alistLookup_insert_self _ _ _
        | some dm => exact alistLookup_insert_self _ _ _
      · unfold loadStep
        rw [hff]
        dsimp only
        cases hdm : alistLookup saved.docmapFiles name0 with
        | none => rfl
        | some dm => exact alistLookup_insert_self _ _ _
    · have hne : n ≠ name0 := by
        intro hq
        subst hq
        exact hnd.1 hh
      have hstep := loadStep_lookup_ne saved st n name0 hne
      have hrest := ih (loadStep saved st n) hnd.2 hh
      refine ⟨hrest.1, hrest.2.trans ?_⟩
      cases hdm : alistLookup saved.docmapFiles name0 with
      | none => exact hstep.2
      | some dm => rfl

theorem save_docmap_lookup_none (idxs : List (String × FaissIndex))
    (dmaps : List (String × List (Nat × Doc))) (name0 : String)
    (h : alistLookup dmaps name0 = none) :
    alistLookup (idxs.filterMap (fun p =>
      (alistLookup dmaps p.1).map (fun dm => (p.1, dm)))) name0 = none := by
  induction idxs with
  | nil => rfl
  | cons p rest ih =>
    rw [List.filterMap_cons]
    cases hp : alistLookup dmaps p.1 with
    | none => exact ih
    | some dmv =>
      simp only [Option.map_some']
      by_cases hpn : p.1 = name0
      · rw [hpn] at hp
        rw [hp] at h
        exact Option.noConfusion h
      · simp only [alistLookup, hpn, if_false]
        exact ih

theorem save_docmap_lookup_some (idxs : List (String × FaissIndex))
    (dmaps : List (String × List (Nat × Doc))) (name0 : String)
    (dm : List (Nat × Doc))
    (hmem : name0 ∈ idxs.map Prod.fst)
    (h : alistLookup dmaps name0 = some dm) :
    alistLookup (idxs.filterMap (fun p =>
      (alistLookup dmaps p.1).map (fun dm => (p.1, dm)))) name0 = some dm := by
  induction idxs with
  | nil => simp at hmem
  | cons p rest ih =>
    rw [List.filterMap_cons]
    by_cases hpn : p.1 = name0
    · rw [hpn, h]
      simp only [Option.map_some']
      simp [alistLookup, hpn]
    · have hmem2 : name0 ∈ rest.map Prod.fst := by
        rcases List.mem_cons.mp hmem with hh | hh
        · exact absurd hh.symm hpn
        · exact hh
      cases hp : alistLookup dmaps p.1 with
      | none => exact ih hmem2
      | some dmv =>
        simp only [Option.map_some']
        simp only [alistLookup, hpn, if_false]
        exact ih hmem2

/-- C8: round-trip persistence — `save_indexes` followed by `load_indexes`
into a fresh store (same model, empty maps) reproduces identical `search`
results (same ids, texts, metadata and scores; the model is exact, so
"within floating-point tolerance" is exact equality) for every query, every
`k` and every collection that existed before persisting. The `Nodup`
hypothesis is the Python-dict key-uniqueness invariant of `self.indexes`. -/
theorem persist_roundtrip (s fresh : VectorStore) (index_name query : String) (k : Nat)
    (hnd : (s.indexes.map Prod.fst).Nodup)
    (hmodel : fresh.model = s.model)
    (hfd : fresh.document_maps = [])
    (hex : (alistLookup s.indexes index_name).isSome) :
    search (load_indexes (save_indexes s) fresh) index_name query k
      = search s index_name query k := by
  obtain ⟨idx0, hidx0⟩ := Option.isSome_iff_exists.mp hex
  have hmem : index_name ∈ (save_indexes s).metadata :=
    (alistLookup_isSome_iff_mem _ _).mp hex
  have hff : alistLookup (save_indexes s).faissFiles index_name = some idx0 := hidx0
  have hgo := load_go_mem (save_indexes s) (save_indexes s).metadata fresh
    index_name idx0 hnd hmem hff
  apply search_congr
  · rw [load_model, hmodel]
  · unfold load_indexes
    rw [hgo.1, hidx0]
  · unfold load_indexes
    rw [hgo.2]
    dsimp only [save_indexes]
    cases hdm : alistLookup s.document_maps index_name with
    | none =>
      rw [save_docmap_lookup_none s.indexes s.document_maps index_name hdm]
      rw [hfd]
      rfl
    | some dm =>
      rw [save_docmap_lookup_some s.indexes s.document_maps index_name dm hmem hdm]

/-- Witness for C8 at the concrete store `s2`. -/
theorem persist_roundtrip_witness :
    search (load_indexes (save_indexes s2) freshStore) "kb" "hello" 4
      = search s2 "kb" "hello" 4 :=
  persist_roundtrip s2 freshStore "kb" "hello" 4 (by decide) (by rfl) (by rfl) (by decide)
